import Mathlib

set_option maxRecDepth 4000

/-!
# Verification of the CROT DALAM record-normalization and risk-scoring core

Shallow embedding of `src/crot_dalam.py` (single-file Python CLI scraper).
Pure functions of the source are translated into executable Lean definitions:

* `to_int_safe`        — shorthand count parser (lines 250-268);
* `parse_username_and_id_from_url` — URL identity parser (lines 230-239);
* `collect_hashtags`   — hashtag extractor `_collect_hashtags` (lines 405-408);
* `risk_score`         — fraud-indicator scorer (lines 271-287);
* `scrollRun`          — the scroll/collect loop `_scroll_and_collect`
  (lines 341-372), with the browser page modelled as a trace of cycles;
* `runSearch`          — the orchestrator slice of `search` (lines 685-736),
  with the browser modelled as oracles;
* `sortRecordsForReport` / `riskClassOf` — the HTML report ordering and
  risk flagging in `write_html_report` (lines 559-570).

Modelling conventions:

* Python `str` is Lean `String` / `List Char`.  Unicode-sensitive Python
  primitives (`str.lower`, `\w`, `\d` in `re`) are modelled at ASCII
  precision, which is exact on ASCII text (all inputs exercised here).
* Python `float` is IEEE binary64; it is modelled exactly by rationals
  together with `roundDouble` (round to nearest, ties to even).  Overflow to
  `inf` (only reachable for numbers ≥ ~1e308) is outside the modelled range.
* Each regular expression of the source is embedded as a bespoke matcher
  with Python's leftmost / greedy / backtracking semantics for exactly that
  pattern; `findall`/`finditer` advance past each match and by one character
  on failure, as in CPython.
* Fallible Python code (`try`/`except` returning a default) is total here;
  exception arms that only produce a default value are folded into the
  corresponding branch.
-/

/-! ## Generic helpers shared by several components -/

/-- Python `str.strip()` (ASCII whitespace precision). -/
def pyStrip (cs : List Char) : List Char :=
  ((cs.dropWhile Char.isWhitespace).reverse.dropWhile Char.isWhitespace).reverse

/-- Value of a digit string read in base 10 (`int("…")`); empty list is `0`,
matching `int(re.sub(r"[^0-9]", "", s) or 0)` where the empty string falls
back to `0`. -/
def natOfDigits (ds : List Char) : Nat :=
  ds.foldl (fun a c => a * 10 + (c.toNat - 48)) 0

/-- Order-preserving first-occurrence deduplication,
Python `list(dict.fromkeys(xs))`. -/
def dedupFirstAux (seen : List String) : List String → List String
  | [] => []
  | x :: xs =>
    if x ∈ seen then dedupFirstAux seen xs
    else x :: dedupFirstAux (x :: seen) xs

/-- Python `list(dict.fromkeys(xs))`: distinct elements, first-seen order. -/
def dedupFirst (xs : List String) : List String :=
  dedupFirstAux [] xs

/-- Scan for `needle` as a contiguous run of `hay` (Python `needle in hay`),
trying every start position left to right. -/
def containsSubAux (needle : List Char) : List Char → Bool
  | [] => needle.isEmpty
  | c :: rest => needle.isPrefixOf (c :: rest) || containsSubAux needle rest

/-- Python substring test `needle in hay`. -/
def containsSub (hay needle : String) : Bool :=
  containsSubAux needle.data hay.data

/-- `str.lower()` on one character, at ASCII precision (identical to Python on
ASCII; non-ASCII letters are left unchanged in this model). -/
def pyLowerCh (c : Char) : Char :=
  if c.isUpper then Char.ofNat (c.toNat + 32) else c

/-- `text.lower()` at ASCII precision. -/
def strLower (s : String) : String :=
  ⟨s.data.map pyLowerCh⟩

/-! ## Shorthand count parser `to_int_safe` (source lines 242-268)

The source matches `([0-9]{1,3}(?:,[0-9]{3})+|[0-9]+(?:\.[0-9]+)?)([kKmM]?)`
anchored at the start (`re.match`), strips `","`, converts with `float`,
multiplies by the `_KSUFFIX` factor, and casts with `int`; on no match it
falls back to `int(re.sub(r"[^0-9]", "", s) or 0)`. -/

/-- Leading run of ASCII digits (`[0-9]*` at the current position). -/
def digitsPrefix (cs : List Char) : List Char :=
  cs.takeWhile Char.isDigit

/-- Greedy `(?:,[0-9]{3})*`: consume as many `",ddd"` groups as possible,
returning `(consumed, rest)`.  Fuel is the length of the input. -/
def commaGroups : Nat → List Char → List Char × List Char
  | 0, cs => ([], cs)
  | fuel + 1, cs =>
    match cs with
    | c0 :: c1 :: c2 :: c3 :: rest =>
      if c0 = ',' ∧ c1.isDigit ∧ c2.isDigit ∧ c3.isDigit then
        let p := commaGroups fuel rest
        (c0 :: c1 :: c2 :: c3 :: p.1, p.2)
      else ([], cs)
    | _ => ([], cs)

/-- One greedy attempt of the first alternative `[0-9]{1,3}(?:,[0-9]{3})+`
with the repetition count `k` of the leading digit group fixed. -/
def alt1At (cs : List Char) (k : Nat) : Option (List Char × List Char) :=
  if 1 ≤ k ∧ k ≤ (digitsPrefix cs).length then
    let g := cs.take k
    let rest := cs.drop k
    let p := commaGroups rest.length rest
    if p.1.isEmpty then none else some (g ++ p.1, p.2)
  else none

/-- First alternative `[0-9]{1,3}(?:,[0-9]{3})+` of the count pattern, with
Python's greedy-then-backtrack choice of the leading digit count (3, 2, 1). -/
def matchAlt1 (cs : List Char) : Option (List Char × List Char) :=
  (alt1At cs 3).orElse fun _ => (alt1At cs 2).orElse fun _ => alt1At cs 1

/-- Second alternative `[0-9]+(?:\.[0-9]+)?` of the count pattern. -/
def matchAlt2 (cs : List Char) : Option (List Char × List Char) :=
  let d := digitsPrefix cs
  if d.isEmpty then none
  else
    let rest := cs.drop d.length
    match rest with
    | c :: rest2 =>
      if c = '.' then
        let f := digitsPrefix rest2
        if f.isEmpty then some (d, rest)
        else some (d ++ '.' :: f, rest2.drop f.length)
      else some (d, rest)
    | [] => some (d, rest)

/-- `re.match(r"([0-9]{1,3}(?:,[0-9]{3})+|[0-9]+(?:\.[0-9]+)?)([kKmM]?)", s)`:
returns the two captured groups (number text, optional suffix letter). -/
def matchNum (cs : List Char) : Option (List Char × Option Char) :=
  match (matchAlt1 cs).orElse fun _ => matchAlt2 cs with
  | none => none
  | some (g, rest) =>
    match rest with
    | c :: _ =>
      if c = 'k' ∨ c = 'K' ∨ c = 'm' ∨ c = 'M' then some (g, some c)
      else some (g, none)
    | [] => some (g, none)

/-- Exact rational arithmetic on unreduced fractions with positive
denominator (kernel-computable; `Rat`'s operations are irreducible and do
not evaluate inside proofs).  Denominator positivity is maintained by
construction at every use below. -/
structure PreRat where
  num : ℤ
  den : ℕ
deriving Repr

/-- Embed a natural number. -/
def pqOfNat (n : ℕ) : PreRat := ⟨n, 1⟩

/-- Embed an integer. -/
def pqOfInt (z : ℤ) : PreRat := ⟨z, 1⟩

/-- Exact sum. -/
def pqAdd (a b : PreRat) : PreRat := ⟨a.num * b.den + b.num * a.den, a.den * b.den⟩

/-- Exact difference. -/
def pqSub (a b : PreRat) : PreRat := ⟨a.num * b.den - b.num * a.den, a.den * b.den⟩

/-- Exact product. -/
def pqMul (a b : PreRat) : PreRat := ⟨a.num * b.num, a.den * b.den⟩

/-- Strict order by cross-multiplication (valid for positive denominators). -/
def pqLt (a b : PreRat) : Bool := a.num * b.den < b.num * a.den

/-- Nonpositivity test. -/
def pqNonpos (a : PreRat) : Bool := a.num ≤ 0

/-- `⌊a⌋` (floor division; for the nonnegative values reaching Python's
`int()` this is truncation toward zero). -/
def pqFloor (a : PreRat) : ℤ := a.num.fdiv a.den

/-- Exact rational value of the matched number text (digits with at most one
`'.'`), i.e. the real number denoted by the decimal literal fed to `float`. -/
def ratOfNumStr (cs : List Char) : PreRat :=
  let ip := cs.takeWhile (fun c => c ≠ '.')
  match cs.drop ip.length with
  | '.' :: fr => pqAdd (pqOfNat (natOfDigits ip)) ⟨natOfDigits fr, 10 ^ fr.length⟩
  | _ => pqOfNat (natOfDigits ip)

/-- `⌊log₂ n⌋` by structural recursion on a fuel bound (`Nat.log2` is
well-founded and does not reduce in the kernel); `natLog2Aux n n` computes
`Nat.log2 n` since at most `n` halvings are needed. -/
def natLog2Aux : Nat → Nat → Nat
  | 0, _ => 0
  | fuel + 1, n => if 2 ≤ n then natLog2Aux fuel (n / 2) + 1 else 0

/-- `⌊log₂ n⌋` (0 at 0). -/
def natLog2 (n : Nat) : Nat := natLog2Aux n n

/-- `2 ^ e` as an exact fraction, for an integer exponent. -/
def pow2Q (e : ℤ) : PreRat :=
  if 0 ≤ e then ⟨2 ^ e.toNat, 1⟩ else ⟨1, 2 ^ (-e).toNat⟩

/-- `⌊log₂ q⌋` for a positive fraction (any representation: only the binades
of numerator and denominator are used). -/
def floorLog2Rat (q : PreRat) : ℤ :=
  if pqNonpos q then 0
  else
    let c : ℤ := (natLog2 q.num.toNat : ℤ) - (natLog2 q.den : ℤ)
    if pqLt q (pow2Q c) then c - 1 else c

/-- Round a fraction to the nearest integer, ties to even (IEEE default). -/
def roundHalfEvenQ (q : PreRat) : ℤ :=
  let f := pqFloor q
  let r := pqSub q (pqOfInt f)
  if pqLt r ⟨1, 2⟩ then f
  else if pqLt ⟨1, 2⟩ r then f + 1
  else if f % 2 = 0 then f else f + 1

/-- Round a nonnegative fraction to the nearest IEEE binary64 value (as an
exact fraction); this is what CPython's `float(decimal-string)` and float
multiplication produce within the normal range. -/
def roundDouble (q : PreRat) : PreRat :=
  if q.num = 0 then pqOfNat 0
  else
    let e : ℤ := floorLog2Rat q - 52
    pqMul (pqOfInt (roundHalfEvenQ (pqMul q (pow2Q (-e))))) (pow2Q e)

/-- `_KSUFFIX.get(suf, 1)` of the source (lines 242-247). -/
def kSuffixVal (c : Char) : PreRat :=
  if c = 'k' ∨ c = 'K' then pqOfNat 1000
  else if c = 'm' ∨ c = 'M' then pqOfNat 1000000
  else pqOfNat 1

/-- The suffix step `if suf: val *= _KSUFFIX.get(suf, 1)` in double
precision. -/
def applySuffix (val : PreRat) : Option Char → PreRat
  | some c => roundDouble (pqMul val (kSuffixVal c))
  | none => val

/-- `to_int_safe` (source lines 250-268).  `int()` on a nonnegative double is
`Rat.floor`; the values reaching it here are nonnegative. -/
def to_int_safe (s : Option String) : Option ℤ :=
  match s with
  | none => none
  | some str =>
    let cs := pyStrip str.data
    if cs.isEmpty then none
    else
      match matchNum cs with
      | none => some (natOfDigits (cs.filter Char.isDigit) : ℤ)
      | some (g, suf) =>
        let num := g.filter (fun c => c ≠ ',')
        let val := applySuffix (roundDouble (ratOfNumStr num)) suf
        some (pqFloor val)

/-! ## URL identity parser (source lines 170, 230-239)

`_VIDEO_URL_RE = re.compile(r"/(@[^/]+)/video/(\d+)")`, used with
`re.search`.  `parse_username_and_id_from_url` returns
`(group(1).lstrip("@"), group(2))` on a match and `(None, None)` otherwise
(including on any exception). -/

/-- The literal middle part `"/video/"` of `_VIDEO_URL_RE`. -/
def VIDEO_MID : List Char := ['/', 'v', 'i', 'd', 'e', 'o', '/']

/-- Attempt `_VIDEO_URL_RE` anchored at the current position: `'/'`, `'@'`,
then the greedy nonempty run of non-`'/'` characters (the only run that can
be followed by `'/'`), then `"/video/"`, then a greedy nonempty digit run.
Returns `(group 1 with its '@', group 2)`. -/
def matchVideoAt : List Char → Option (List Char × List Char)
  | c0 :: c1 :: rest =>
    if c0 = '/' ∧ c1 = '@' then
      let u := rest.takeWhile (fun c => c ≠ '/')
      if u = [] then none
      else
        let r2 := rest.drop u.length
        if VIDEO_MID.isPrefixOf r2 then
          let ds := (r2.drop 7).takeWhile Char.isDigit
          if ds = [] then none else some ('@' :: u, ds)
        else none
    else none
  | _ => none

/-- `re.search(_VIDEO_URL_RE, s)`: try every start position left to right. -/
def videoUrlSearch : List Char → Option (List Char × List Char)
  | [] => none
  | c :: rest =>
    match matchVideoAt (c :: rest) with
    | some r => some r
    | none => videoUrlSearch rest

/-- `parse_username_and_id_from_url` (source lines 230-239).  `group(1)` is
always nonempty (it contains its `'@'`), so Python's truthiness test passes
and the username is `group(1).lstrip("@")`; total, the source's
`try`/`except` can never fire on the regex path. -/
def parse_username_and_id_from_url (url : String) : Option String × Option String :=
  match videoUrlSearch url.data with
  | none => (none, none)
  | some (g1, ds) => (some ⟨g1.dropWhile (fun c => c = '@')⟩, some ⟨ds⟩)

/-- The canonical path shape of the spec: the URL contains
`/@<username>/video/<digits>` with a nonempty slash-free username and a
nonempty digit run. -/
def canonicalShape (cs : List Char) : Prop :=
  ∃ pre user ds suf, cs = pre ++ '/' :: '@' :: (user ++ VIDEO_MID ++ ds ++ suf) ∧
    user ≠ [] ∧ (∀ c ∈ user, c ≠ '/') ∧ ds ≠ [] ∧ (∀ c ∈ ds, c.isDigit = true)

/-! ## Hashtag extractor (source lines 169, 405-408)

`_HASHTAG_RE = re.compile(r"(?<!&)#(\w{2,64})", re.UNICODE)`;
`_collect_hashtags` returns `list(dict.fromkeys(...))` over `finditer`
group 1 results.  `\w` is modelled at ASCII precision. -/

/-- ASCII precision of the regex word class `\w`. -/
def isWordCh (c : Char) : Bool :=
  c.isAlphanum || c = '_'

/-- `finditer(_HASHTAG_RE, text)` scan, carrying the previous character for
the `(?<!&)` lookbehind; on a match (`'#'` not preceded by `'&'` followed by
2 to 64 word characters, greedy) emit group 1 and resume after it. -/
def hashtagScanAux : Nat → Option Char → List Char → List String
  | 0, _, _ => []
  | fuel + 1, prev, cs =>
    match cs with
    | [] => []
    | c :: rest =>
      if c = '#' then
        if prev = some '&' then hashtagScanAux fuel (some c) rest
        else if ((rest.takeWhile isWordCh).take 64).length < 2 then
          hashtagScanAux fuel (some c) rest
        else
          ⟨(rest.takeWhile isWordCh).take 64⟩ ::
            hashtagScanAux fuel (some (((rest.takeWhile isWordCh).take 64).getLastD '#'))
              (rest.drop ((rest.takeWhile isWordCh).take 64).length)
      else hashtagScanAux fuel (some c) rest

/-- The scan, with enough fuel for the whole text (every step consumes at
least one character, so `cs.length` steps suffice). -/
def hashtagScan (prev : Option Char) (cs : List Char) : List String :=
  hashtagScanAux cs.length prev cs

/-- `_collect_hashtags` (source lines 405-408): `None`/empty text yields `[]`,
otherwise the deduplicated group-1 matches in first-occurrence order. -/
def collect_hashtags (text : Option String) : List String :=
  match text with
  | none => []
  | some t => if t.isEmpty then [] else dedupFirst (hashtagScan none t.data)

/-! ## Risk scorer (source lines 140-162, 271-287)

`risk_score` lowercases the text, appends every `RISK_TERMS` entry that is a
substring, then every regex hit of `RISK_RE` (for the phone pattern,
`findall` yields the single capture group), deduplicates preserving order,
takes the count as the score, and adds `+2` once if any of four
high-confidence phrases occurs in the lowered text. -/

/-- `RISK_TERMS` (source lines 141-154), in source order. -/
def RISK_TERMS : List String := [
  "undian berhadiah", "hadiah langsung", "giveaway resmi", "dapat hadiah", "menang undian",
  "hadiah cair", "bagi-bagi saldo", "saldo dana gratis", "saldo gopay gratis", "saldo ovo gratis",
  "investasi cepat", "cuan cepat", "slot gacor", "deposit via dm", "deposit via link",
  "pinjol cair", "pinjaman tanpa agunan", "kerja dari rumah gaji", "kerja online tanpa modal",
  "reseller resmi", "agen resmi", "koin gratis", "kode rahasia",
  "WA admin", "hubungi admin", "dm admin", "langsung chat admin",
  "rekening penampung", "transfer dulu", "biaya admin dulu",
  "free giveaway", "airdrop", "claim reward", "verify wallet", "seed phrase", "private key",
  "binance bonus", "okx bonus", "bybit bonus", "crypto double", "investment 100% profit",
  "limited slots", "send first", "processing fee", "admin fee", "payment upfront"]

/-- The four amplification phrases of source line 285. -/
def RISK_AMPS : List String :=
  ["transfer dulu", "seed phrase", "private key", "biaya admin"]

/-- Word test on an optional character; out of range counts as non-word
(regex `\b` semantics at the ends of the text). -/
def isWordOpt : Option Char → Bool
  | some c => isWordCh c
  | none => false

/-- Regex `\b` between the previous character and the current position. -/
def pyBoundary (prev cur : Option Char) : Bool :=
  isWordOpt prev != isWordOpt cur

/-- Is the character at index `i` a word character (`false` past the end)? -/
def isWordAt (cs : List Char) (i : Nat) : Bool :=
  isWordOpt (cs.get? i)

/-- Greedy bounded class repetition followed by `\b`, given that the first
`k0` characters of `cs` lie in the (word-only) class: try the repetition
count from `k0` (the greedy maximum, `min hi L` at the call sites) down to
`lo`, accepting the first count whose following position is non-word.  All
class characters of the four source patterns are word characters, so the
trailing `\b` holds exactly at a non-word (or end) position. -/
def runBoundDesc (lo : Nat) (cs : List Char) : Nat → Option Nat
  | 0 => if lo = 0 ∧ isWordAt cs 0 = false then some 0 else none
  | k + 1 =>
    if k + 1 < lo then none
    else if isWordAt cs (k + 1) = false then some (k + 1)
    else runBoundDesc lo cs k

/-- `\b(\+?62|0)8\d{8,12}\b` (source line 158), attempted at one position;
`findall` reports capture group 1 (`"+62"`, `"62"` or `"0"`), which is
`cs.take g`.  The alternation is deterministic: the three branches start
with distinct characters. -/
def attemptPhone (prev : Option Char) (cs : List Char) : Option (List Char × Nat) :=
  if pyBoundary prev cs.head? = false then none
  else
    let g : Option Nat :=
      if cs.take 3 = ['+', '6', '2'] then some 3
      else if cs.take 2 = ['6', '2'] then some 2
      else if cs.take 1 = ['0'] then some 1
      else none
    match g with
    | none => none
    | some gl =>
      if (cs.drop gl).head? = some '8' then
        let tail := cs.drop (gl + 1)
        match runBoundDesc 8 tail (min 12 (digitsPrefix tail).length) with
        | some k => some (cs.take gl, gl + 1 + k)
        | none => none
      else none

/-- Character class `[a-zA-HJ-NP-Z0-9]` of the BTC-wallet pattern. -/
def btcClassCh (c : Char) : Bool :=
  ('a' ≤ c && c ≤ 'z') || ('A' ≤ c && c ≤ 'H') || ('J' ≤ c && c ≤ 'N') ||
    ('P' ≤ c && c ≤ 'Z') || c.isDigit

/-- `\b(?:bc1|[13])[a-zA-HJ-NP-Z0-9]{25,39}\b` (source line 159), attempted
at one position; `findall` reports the whole match. -/
def attemptBtc (prev : Option Char) (cs : List Char) : Option (List Char × Nat) :=
  if pyBoundary prev cs.head? = false then none
  else
    let p : Option Nat :=
      if cs.take 3 = ['b', 'c', '1'] then some 3
      else if cs.take 1 = ['1'] ∨ cs.take 1 = ['3'] then some 1
      else none
    match p with
    | none => none
    | some pl =>
      let tail := cs.drop pl
      match runBoundDesc 25 tail (min 39 (tail.takeWhile btcClassCh).length) with
      | some k => some (cs.take (pl + k), pl + k)
      | none => none

/-- `\b[Tt]rx[a-zA-Z0-9]{25,34}\b` (source line 160), attempted at one
position; `findall` reports the whole match. -/
def attemptTrx (prev : Option Char) (cs : List Char) : Option (List Char × Nat) :=
  if pyBoundary prev cs.head? = false then none
  else if cs.take 3 = ['t', 'r', 'x'] ∨ cs.take 3 = ['T', 'r', 'x'] then
    let tail := cs.drop 3
    match runBoundDesc 25 tail (min 34 (tail.takeWhile Char.isAlphanum).length) with
    | some k => some (cs.take (3 + k), 3 + k)
    | none => none
  else none

/-- Character class `[0-9A-Fa-f]` of the ETH pattern. -/
def hexClassCh (c : Char) : Bool :=
  c.isDigit || ('A' ≤ c && c ≤ 'F') || ('a' ≤ c && c ≤ 'f')

/-- `\b(?:0x)[0-9A-Fa-f]{40}\b` (source line 161), attempted at one
position; `findall` reports the whole match. -/
def attemptEth (prev : Option Char) (cs : List Char) : Option (List Char × Nat) :=
  if pyBoundary prev cs.head? = false then none
  else if cs.take 2 = ['0', 'x'] then
    let tail := cs.drop 2
    match runBoundDesc 40 tail (min 40 (tail.takeWhile hexClassCh).length) with
    | some k => some (cs.take (2 + k), 2 + k)
    | none => none
  else none

/-- `rx.findall(text)`: scan left to right, carrying the previous character
for `\b`; on a match emit the reported text and resume past the consumed
characters, on failure advance one character.  The source patterns never
match the empty string; `max k 1` only guards progress, and the fuel
argument (`cs.length` at the call sites, each step consuming at least one
character) only makes the recursion structural. -/
def findallAux (attempt : Option Char → List Char → Option (List Char × Nat)) :
    Nat → Option Char → List Char → List String
  | 0, _, _ => []
  | fuel + 1, prev, cs =>
    match cs with
    | [] => []
    | c :: rest =>
      match attempt prev (c :: rest) with
      | some (res, k) =>
        (⟨res⟩ : String) ::
          findallAux attempt fuel ((c :: rest).get? (max k 1 - 1))
            ((c :: rest).drop (max k 1))
      | none => findallAux attempt fuel (some c) rest

/-- The `for rx in RISK_RE: for m in rx.findall(text)` double loop of source
lines 277-281 (each pattern has at most one group, so every `m` is a
string; the `if s:` guard drops empty matches, none of which can occur). -/
def riskRegexMatches (t : String) : List String :=
  (findallAux attemptPhone t.data.length none t.data ++
    findallAux attemptBtc t.data.length none t.data ++
    findallAux attemptTrx t.data.length none t.data ++
    findallAux attemptEth t.data.length none t.data).filter
    (fun s => s.isEmpty = false)

/-- `risk_score` (source lines 271-287). -/
def risk_score (text : Option String) : Nat × List String :=
  let t := strLower (text.getD "")
  let termMatches := RISK_TERMS.filter (fun term => containsSub t term)
  let dedup := dedupFirst (termMatches ++ riskRegexMatches t)
  let score := dedup.length
  if RISK_AMPS.any (fun k => containsSub t k) then (score + 2, dedup)
  else (score, dedup)

/-! ## Record model (source lines 105-137) -/

/-- The `VideoRecord` dataclass, with the Python field defaults. -/
structure VideoRecord where
  video_id : String
  url : String
  username : Option String := none
  author_name : Option String := none
  description : Option String := none
  upload_date : Option String := none
  like_count : Option Nat := none
  comment_count : Option Nat := none
  share_count : Option Nat := none
  view_count : Option Nat := none
  hashtags : List String := []
  comments : List (String × String) := []
  extracted_urls : List String := []
  keyword_searched : Option String := none
  risk_score : Nat := 0
  risk_matches : List String := []
deriving Repr, DecidableEq

/-! ## Scroll-and-collect loop `_scroll_and_collect` (source lines 341-372)

The browser page is modelled as a trace of cycles, one per iteration of the
`while len(seen) < limit` loop: the anchors the `locator(...).evaluate_all`
call yields that iteration (an exception yields `[]`, folded in), and the
`document.body.scrollHeight` the final `evaluate` yields (`none` models the
`except: pass` arm, which skips the height comparison). -/

/-- One iteration's observations of the page. -/
structure PageCycle where
  anchors : List String
  height : Option Nat
deriving Repr, DecidableEq

/-- The candidate filter of source line 353:
`"/video/" in href and re.search(_VIDEO_URL_RE, href)`. -/
def isCandidateHref (href : String) : Bool :=
  containsSub href "/video/" && (videoUrlSearch href.data).isSome

/-- The inner `for href in anchors` loop (source lines 352-356): insert each
candidate into the ordered `seen` dict, breaking once `limit` is reached. -/
def addAnchors (limit : Nat) : List String → List String → List String
  | seen, [] => seen
  | seen, a :: rest =>
    if isCandidateHref a then
      let seen1 := if a ∈ seen then seen else seen ++ [a]
      if limit ≤ seen1.length then seen1 else addAnchors limit seen1 rest
    else addAnchors limit seen rest

/-- The `while len(seen) < limit` loop of `_scroll_and_collect` run against a
trace.  Returns `some (collected, cyclesUsed)` when the loop exits within
the trace (cap reached, or `new_height == last_height` break) and `none`
when the trace is exhausted with the loop still running. -/
def scrollRun (limit : Nat) : List PageCycle → List String → Nat → Nat →
    Option (List String × Nat)
  | [], seen, _, used =>
    if limit ≤ seen.length then some (seen, used) else none
  | c :: rest, seen, lastH, used =>
    if limit ≤ seen.length then some (seen, used)
    else
      let seen1 := addAnchors limit seen c.anchors
      match c.height with
      | some h =>
        if h = lastH then some (seen1, used + 1)
        else scrollRun limit rest seen1 h (used + 1)
      | none => scrollRun limit rest seen1 lastH (used + 1)

/-! ## Collection orchestrator, the pure slice of `search`
(source lines 679-736)

The browser collaborator is abstracted by oracles: `oracle q n` is what
`search_collect_video_urls(page, q, limit=n)` returns for query `q`,
`descOracle u` the description text scraped while pivoting (`""` when
absent, as in the source), and `visit u` the `VideoRecord` built by
`extract_video_metadata` for URL `u` (per-URL exception handling is not
modelled: every visit yields its record). -/

/-- Deduplication of candidate URLs (source lines 721-727): a `seen` set and
a loop preserving first occurrence — the same function as
`dict.fromkeys`. -/
def dedupUrls (urls : List String) : List String :=
  dedupFirst urls

/-- One `tags[t] = tags.get(t, 0) + 1` step on the insertion-ordered tag
dict (source line 713). -/
def bumpTag (tags : List (String × Nat)) (t : String) : List (String × Nat) :=
  if tags.any (fun p => p.1 = t) then
    tags.map (fun p => if p.1 = t then (p.1, p.2 + 1) else p)
  else tags ++ [(t, 1)]

/-- `sorted(tags.items(), key=lambda x: -x[1])` comparison: `x` may precede
`y` exactly when `-x.2 ≤ -y.2`. -/
def tagLE (x y : String × Nat) : Bool :=
  y.2 ≤ x.2

/-- The late `rec.keyword_searched = ", ".join(searched_keywords)` stamp
(source line 735). -/
def stampKeywords (kws : List String) (r : VideoRecord) : VideoRecord :=
  { r with keyword_searched := some (String.intercalate ", " kws) }

/-- The orchestrator pipeline of `search` (source lines 685-736): per-keyword
candidate collection with cap `limit`, optional pivot by the top hashtags of
the first 20 candidates' descriptions (each pivot query capped at
`max 10 (limit / 2)`), order-preserving URL deduplication, and one stamped
record per unique URL.  Python's stable `sorted` is `List.insertionSort`
with a total preorder. -/
def pivotTop (descOracle : String → String) (pivotHashtags : Nat)
    (all1 : List String) : List (String × Nat) :=
  if 0 < pivotHashtags then
    let descs := (all1.take 20).map descOracle
    let tags := descs.foldl (fun acc d => (collect_hashtags (some d)).foldl bumpTag acc) []
    (List.insertionSort (fun x y => tagLE x y = true) tags).take pivotHashtags
  else []

def runSearch (oracle : String → Nat → List String) (descOracle : String → String)
    (visit : String → VideoRecord) (keywords : List String) (limit : Nat)
    (pivotHashtags : Nat) : List VideoRecord :=
  let all1 := keywords.foldl (fun acc kw => acc ++ oracle kw limit) []
  let top := pivotTop descOracle pivotHashtags all1
  let all2 := top.foldl (fun acc p => acc ++ oracle ("#" ++ p.1) (max 10 (limit / 2))) all1
  let kws2 := keywords ++ top.map (fun p => "#" ++ p.1)
  (dedupUrls all2).map (fun u => stampKeywords kws2 (visit u))

/-! ## HTML report ordering and flagging (source lines 559-570) -/

/-- The sort key comparison of
`sorted(records, key=lambda r: (-(r.risk_score or 0), -(r.like_count or 0)))`:
`a` may precede `b` exactly when `key a ≤ key b`.  `x or 0` maps `None` (and
`0`) to `0`, i.e. `Option.getD 0`. -/
def reportLE (a b : VideoRecord) : Bool :=
  decide (b.risk_score < a.risk_score ∨
    (a.risk_score = b.risk_score ∧ b.like_count.getD 0 ≤ a.like_count.getD 0))

/-- `records_sorted` of `write_html_report` (source line 559); Python's
stable `sorted` is the stable `List.insertionSort` under the total preorder
`reportLE`. -/
def sortRecordsForReport (records : List VideoRecord) : List VideoRecord :=
  List.insertionSort (fun a b => reportLE a b = true) records

/-- The per-row CSS class of source line 570: `"risk-high"` at score ≥ 3,
else `"risk-medium"` at score > 0, else `""`. -/
def riskClassOf (r : VideoRecord) : String :=
  if 3 ≤ r.risk_score then "risk-high"
  else if 0 < r.risk_score then "risk-medium"
  else ""

/-! ## Generic lemmas -/

theorem isPrefixOfExists (xs ys : List Char) :
    xs.isPrefixOf ys = true ↔ ∃ t, ys = xs ++ t := by
  rw [ List.isPrefixOf_iff_prefix]
  constructor
  · intro h
    obtain ⟨t, ht⟩ := h
    exact ⟨t, ht.symm⟩
  · intro h
    obtain ⟨t, ht⟩ := h
    exact ⟨t, ht.symm⟩

theorem containsSubAux_subset (needle hay : List Char)
    (h : containsSubAux needle hay = true) : ∀ c ∈ needle, c ∈ hay := by
  induction hay with
  | nil =>
    intro c hc
    simp [containsSubAux, List.isEmpty_iff] at h
    simp [h] at hc
  | cons x rest ih =>
    intro c hc
    simp only [containsSubAux, Bool.or_eq_true] at h
    rcases h with h | h
    · obtain ⟨t, ht⟩ := (isPrefixOfExists _ _).mp h
      rw [ht]
      exact List.mem_append_left _ hc
    · exact List.mem_cons_of_mem _ (ih h c hc)

theorem dedupFirstAux_mem (l : List String) :
    ∀ seen x, x ∈ dedupFirstAux seen l ↔ (x ∈ l ∧ x ∉ seen) := by
  induction l with
  | nil => simp [dedupFirstAux]
  | cons y ys ih =>
    intro seen x
    by_cases hy : y ∈ seen
    · rw [dedupFirstAux, if_pos hy, ih]
      constructor
      · intro h
        exact ⟨List.mem_cons_of_mem _ h.1, h.2⟩
      · intro h
        refine ⟨?_, h.2⟩
        rcases List.mem_cons.mp h.1 with h1 | h1
        · subst h1
          exact absurd hy h.2
        · exact h1
    · rw [dedupFirstAux, if_neg hy, List.mem_cons]
      constructor
      · intro h
        rcases h with h | h
        · subst h
          exact ⟨List.mem_cons_self _ _, hy⟩
        · rw [ih] at h
          have h2 : x ∉ seen := fun hx => h.2 (List.mem_cons_of_mem _ hx)
          exact ⟨List.mem_cons_of_mem _ h.1, h2⟩
      · intro h
        rcases List.mem_cons.mp h.1 with h1 | h1
        · exact Or.inl h1
        · by_cases hx : x = y
          · exact Or.inl hx
          · refine Or.inr ((ih _ _).mpr ⟨h1, ?_⟩)
            intro hmem
            rcases List.mem_cons.mp hmem with h2 | h2
            · exact hx h2
            · exact h.2 h2

theorem dedupFirstAux_nodup (l : List String) :
    ∀ seen, (dedupFirstAux seen l).Nodup := by
  induction l with
  | nil => simp [dedupFirstAux]
  | cons y ys ih =>
    intro seen
    by_cases hy : y ∈ seen
    · rw [dedupFirstAux, if_pos hy]
      exact ih seen
    · rw [dedupFirstAux, if_neg hy]
      refine List.nodup_cons.mpr ⟨?_, ih _⟩
      intro hmem
      exact ((dedupFirstAux_mem ys _ y).mp hmem).2 (List.mem_cons_self _ _)

theorem dedupFirstAux_length (l : List String) :
    ∀ seen, (dedupFirstAux seen l).length ≤ l.length := by
  induction l with
  | nil => simp [dedupFirstAux]
  | cons y ys ih =>
    intro seen
    by_cases hy : y ∈ seen
    · rw [dedupFirstAux, if_pos hy]
      exact Nat.le_trans (ih seen) (Nat.le_succ _)
    · rw [dedupFirstAux, if_neg hy, List.length_cons]
      exact Nat.succ_le_succ (ih _)

theorem dedupFirst_mem (l : List String) (x : String) : x ∈ dedupFirst l ↔ x ∈ l := by
  rw [dedupFirst, dedupFirstAux_mem]
  simp

theorem dedupFirst_nodup (l : List String) : (dedupFirst l).Nodup :=
  dedupFirstAux_nodup l []

theorem dedupFirst_length (l : List String) : (dedupFirst l).length ≤ l.length :=
  dedupFirstAux_length l []

/-! ## Claim C3 — fallback behaviour of the count parser -/

theorem digitsPrefix_nil_of_head (cs : List Char)
    (h : ∀ c, cs.head? = some c → c.isDigit = false) : digitsPrefix cs = [] := by
  cases cs with
  | nil => rfl
  | cons c rest =>
    have := h c rfl
    simp [digitsPrefix, List.takeWhile_cons, this]

theorem matchNum_none_of_head (cs : List Char)
    (h : ∀ c, cs.head? = some c → c.isDigit = false) : matchNum cs = none := by
  have hd : digitsPrefix cs = [] := digitsPrefix_nil_of_head cs h
  have h1 : ∀ k, alt1At cs k = none := by
    intro k
    unfold alt1At
    rw [hd, if_neg]
    intro hk
    simp only [List.length_nil] at hk
    omega
  have h2 : matchAlt2 cs = none := by
    unfold matchAlt2
    rw [hd]
    simp
  unfold matchNum matchAlt1
  rw [h1 3, h1 2, h1 1, h2]
  rfl

/-- C3.  The claim as stated is false: on input that does not match the
numeric pattern the fallback is `int(re.sub(r"[^0-9]", "", s) or 0)`, whose
`or 0` turns an all-stripped string into `0`, so `parse("abc") == 0`, not
`None`.  Witnessed by `claim_C3_cex`; this is the claim amended to the `0`
fallback: on any input whose stripped text does not start with a digit (the
pattern requires a leading digit) the parser returns the integer value of
the kept digits, `0` when none remain, and `None` exactly for `None` or
whitespace-only input; it never raises (the embedding is total, and the
fallback path performs no fallible operation). -/
theorem claim_C3 :
    (∀ s : String, (∀ c, (pyStrip s.data).head? = some c → c.isDigit = false) →
      to_int_safe (some s) =
        if (pyStrip s.data).isEmpty then none
        else some ((natOfDigits ((pyStrip s.data).filter Char.isDigit) : ℤ))) ∧
    to_int_safe (some "abc") = some 0 ∧
    to_int_safe none = none ∧
    to_int_safe (some "") = none ∧
    to_int_safe (some "   ") = none := by
  refine ⟨?_, by decide, rfl, by decide, by decide⟩
  intro s hs
  by_cases he : (pyStrip s.data).isEmpty
  · simp [to_int_safe, he]
  · simp [to_int_safe, matchNum_none_of_head _ hs, he]

/-- Counterexample to C3 as stated: the spec says `parse("abc") is None`,
but the code returns `0`. -/
theorem claim_C3_cex :
    to_int_safe (some "abc") = some 0 ∧ to_int_safe (some "abc") ≠ none := by
  refine ⟨by decide, by decide⟩

theorem claim_C3_witness :
    (∀ c, (pyStrip "xy7z".data).head? = some c → c.isDigit = false) ∧
    to_int_safe (some "xy7z") = some 7 := by
  refine ⟨by decide, ?_⟩
  have h := claim_C3.1 "xy7z" (by decide)
  rw [h]
  decide

/-! ## Claims C8 — matcher lemmas on well-formed numeric input -/

theorem takeWhile_all_append (p : Char → Bool) (xs ys : List Char)
    (h : ∀ c ∈ xs, p c = true) : (xs ++ ys).takeWhile p = xs ++ ys.takeWhile p := by
  induction xs with
  | nil => simp
  | cons x xt ih =>
    have hx : p x = true := h x (List.mem_cons_self _ _)
    simp only [List.cons_append, List.takeWhile_cons, hx, if_true]
    rw [ih (fun c hc => h c (List.mem_cons_of_mem _ hc))]

theorem takeWhile_head_false (p : Char → Bool) (ys : List Char)
    (h : ∀ c, ys.head? = some c → p c = false) : ys.takeWhile p = [] := by
  cases ys with
  | nil => rfl
  | cons y yt =>
    have := h y rfl
    simp [List.takeWhile_cons, this]

theorem dropWhile_all_false (p : Char → Bool) (cs : List Char)
    (h : ∀ c ∈ cs, p c = false) : cs.dropWhile p = cs := by
  cases cs with
  | nil => rfl
  | cons c ct =>
    have := h c (List.mem_cons_self _ _)
    simp [List.dropWhile_cons, this]

theorem pyStrip_eq_self (cs : List Char) (h : ∀ c ∈ cs, c.isWhitespace = false) :
    pyStrip cs = cs := by
  unfold pyStrip
  rw [dropWhile_all_false _ _ h, dropWhile_all_false, List.reverse_reverse]
  intro c hc
  exact h c (List.mem_reverse.mp hc)

/-- All characters are ASCII digits. -/
def DigitList (cs : List Char) : Prop := ∀ c ∈ cs, c.isDigit = true

/-- A plain decimal number: `[0-9]+` or `[0-9]+.[0-9]+`. -/
def WFPlain (cs : List Char) : Prop :=
  (cs ≠ [] ∧ DigitList cs) ∨
    ∃ d f, cs = d ++ '.' :: f ∧ d ≠ [] ∧ f ≠ [] ∧ DigitList d ∧ DigitList f

/-- One thousands group `",ddd"`. -/
def WFGroup (g : List Char) : Prop :=
  ∃ x y z, g = [',', x, y, z] ∧ x.isDigit = true ∧ y.isDigit = true ∧ z.isDigit = true

/-- A comma-grouped number: 1–3 digits then one or more `",ddd"` groups. -/
def WFGrouped (cs : List Char) : Prop :=
  ∃ a gs, cs = a ++ gs.flatten ∧ a ≠ [] ∧ a.length ≤ 3 ∧ DigitList a ∧
    gs ≠ [] ∧ ∀ g ∈ gs, WFGroup g

/-- A magnitude suffix letter. -/
def SufChar (c : Char) : Prop := c = 'k' ∨ c = 'K' ∨ c = 'm' ∨ c = 'M'

/-- An optional magnitude suffix. -/
def SufOK (suf : List Char) : Prop := suf = [] ∨ ∃ c, suf = [c] ∧ SufChar c

theorem sufChar_props (c : Char) (h : SufChar c) :
    c.isDigit = false ∧ c ≠ '.' ∧ c ≠ ',' ∧ c.isWhitespace = false := by
  rcases h with h | h | h | h <;> subst h <;> refine ⟨by decide, by decide, by decide, by decide⟩

theorem sufOK_head (suf : List Char) (h : SufOK suf) :
    ∀ c, suf.head? = some c → c.isDigit = false ∧ c ≠ '.' ∧ c ≠ ',' := by
  intro c hc
  rcases h with h | ⟨c2, h2, hs⟩
  · subst h
    simp at hc
  · subst h2
    simp only [List.head?_cons, Option.some.injEq] at hc
    subst hc
    exact ⟨(sufChar_props _ hs).1, (sufChar_props _ hs).2.1, (sufChar_props _ hs).2.2.1⟩

theorem commaGroups_no_comma (cs : List Char)
    (h : ∀ c, cs.head? = some c → c ≠ ',') : ∀ fuel, commaGroups fuel cs = ([], cs) := by
  intro fuel
  cases fuel with
  | zero => rfl
  | succ f =>
    rcases cs with _ | ⟨c0, _ | ⟨c1, _ | ⟨c2, _ | ⟨c3, rest⟩⟩⟩⟩
    · rfl
    · rfl
    · rfl
    · rfl
    · have hc0 : c0 ≠ ',' := h c0 rfl
      simp only [commaGroups]
      rw [if_neg]
      intro hk
      exact hc0 hk.1

theorem commaGroups_flatten (gs : List (List Char)) :
    ∀ (suf : List Char) (fuel : Nat), (∀ g ∈ gs, WFGroup g) →
      (∀ c, suf.head? = some c → c ≠ ',') → gs.length ≤ fuel →
      commaGroups fuel (gs.flatten ++ suf) = (gs.flatten, suf) := by
  induction gs with
  | nil =>
    intro suf fuel _ hsuf _
    simpa using commaGroups_no_comma suf hsuf fuel
  | cons g gt ih =>
    intro suf fuel hwf hsuf hfuel
    obtain ⟨x, y, z, hg, hx, hy, hz⟩ := hwf g (List.mem_cons_self _ _)
    cases fuel with
    | zero => simp at hfuel
    | succ f =>
      subst hg
      have hrec := ih suf f (fun g hgmem => hwf g (List.mem_cons_of_mem _ hgmem)) hsuf (by
        simp only [List.length_cons] at hfuel
        omega)
      simp [List.flatten_cons, List.cons_append, List.append_assoc, commaGroups, hx, hy, hz, hrec]

theorem mem_of_head_eq (xs : List Char) (c : Char) (h : xs.head? = some c) : c ∈ xs := by
  cases xs with
  | nil => simp at h
  | cons x xt =>
    simp only [List.head?_cons, Option.some.injEq] at h
    subst h
    exact List.mem_cons_self _ _

theorem ws_false_of_digit (c : Char) (h : c.isDigit = true) : c.isWhitespace = false := by
  by_cases hw : c.isWhitespace = true
  · simp only [Char.isWhitespace, Bool.or_eq_true, decide_eq_true_eq] at hw
    rcases hw with ((h1 | h1) | h1) | h1 <;> subst h1 <;> exact absurd h (by decide)
  · simpa using hw

theorem comma_false_of_digit (c : Char) (h : c.isDigit = true) : c ≠ ',' := by
  rintro rfl
  exact absurd h (by decide)

theorem dot_false_of_digit (c : Char) (h : c.isDigit = true) : c ≠ '.' := by
  rintro rfl
  exact absurd h (by decide)

theorem isEmpty_false_of_ne_nil (xs : List Char) (h : xs ≠ []) : xs.isEmpty = false := by
  cases xs with
  | nil => exact absurd rfl h
  | cons _ _ => rfl

theorem sufOK_mem_ne_comma (suf : List Char) (hs : SufOK suf) : ∀ c ∈ suf, c ≠ ',' := by
  intro c hc
  rcases hs with rfl | ⟨c2, rfl, hsc⟩
  · simp at hc
  · simp only [List.mem_singleton] at hc
    subst hc
    exact (sufChar_props _ hsc).2.2.1

theorem wfPlain_mem_ne_comma (g suf : List Char) (h : WFPlain g) (hs : SufOK suf) :
    ∀ c ∈ g ++ suf, c ≠ ',' := by
  intro c hc
  rcases List.mem_append.mp hc with hg | hsuf
  · rcases h with ⟨_, hdig⟩ | ⟨d, f, hgd, _, _, hd, hf⟩
    · exact comma_false_of_digit c (hdig c hg)
    · subst hgd
      rcases List.mem_append.mp hg with h1 | h1
      · exact comma_false_of_digit c (hd c h1)
      · rcases List.mem_cons.mp h1 with h2 | h2
        · subst h2
          decide
        · exact comma_false_of_digit c (hf c h2)
  · exact sufOK_mem_ne_comma suf hs c hsuf

theorem matchAlt2_plain (g suf : List Char) (h : WFPlain g) (hs : SufOK suf) :
    matchAlt2 (g ++ suf) = some (g, suf) := by
  rcases h with ⟨hne, hdig⟩ | ⟨d, f, hg, hdne, hfne, hd, hf⟩
  · have hdp : digitsPrefix (g ++ suf) = g := by
      unfold digitsPrefix
      rw [takeWhile_all_append _ _ _ hdig, takeWhile_head_false]
      · simp
      · intro c hc
        exact (sufOK_head suf hs c hc).1
    simp only [matchAlt2, hdp, isEmpty_false_of_ne_nil g hne, Bool.false_eq_true, if_false,
      List.drop_left]
    rcases hs with rfl | ⟨c, rfl, hsc⟩
    · rfl
    · simp only []
      rw [if_neg]
      exact fun hdot => (sufChar_props _ hsc).2.1 hdot
  · subst hg
    have hassoc : (d ++ '.' :: f) ++ suf = d ++ '.' :: (f ++ suf) := by simp
    rw [hassoc]
    have hdp : digitsPrefix (d ++ '.' :: (f ++ suf)) = d := by
      unfold digitsPrefix
      rw [takeWhile_all_append _ _ _ hd, takeWhile_head_false]
      · simp
      · intro c hc
        simp only [List.head?_cons, Option.some.injEq] at hc
        subst hc
        decide
    have hfp : digitsPrefix (f ++ suf) = f := by
      unfold digitsPrefix
      rw [takeWhile_all_append _ _ _ hf, takeWhile_head_false]
      · simp
      · intro c hc
        exact (sufOK_head suf hs c hc).1
    simp only [matchAlt2, hdp, isEmpty_false_of_ne_nil d hdne, Bool.false_eq_true, if_false,
      List.drop_left, if_pos rfl, hfp, isEmpty_false_of_ne_nil f hfne, List.drop_left]
    simp

theorem alt1At_none_of_gt (cs : List Char) (k : Nat)
    (h : (digitsPrefix cs).length < k) : alt1At cs k = none := by
  unfold alt1At
  rw [if_neg]
  intro hk
  omega

theorem alt1At_plain_none (g suf : List Char) (k : Nat) (h : WFPlain g) (hs : SufOK suf) :
    alt1At (g ++ suf) k = none := by
  unfold alt1At
  split
  · have hnc : ∀ c, ((g ++ suf).drop k).head? = some c → c ≠ ',' := by
      intro c hc
      exact wfPlain_mem_ne_comma g suf h hs c (List.drop_subset _ _ (mem_of_head_eq _ _ hc))
    simp only []
    rw [commaGroups_no_comma _ hnc]
    simp
  · rfl

theorem matchAlt1_plain_none (g suf : List Char) (h : WFPlain g) (hs : SufOK suf) :
    matchAlt1 (g ++ suf) = none := by
  unfold matchAlt1
  rw [alt1At_plain_none g suf 3 h hs, alt1At_plain_none g suf 2 h hs,
    alt1At_plain_none g suf 1 h hs]
  rfl

theorem flatten_length_ge (gs : List (List Char)) (h : ∀ g ∈ gs, WFGroup g) :
    gs.length ≤ gs.flatten.length := by
  induction gs with
  | nil => simp
  | cons g gt ih =>
    obtain ⟨x, y, z, hg, -, -, -⟩ := h g (List.mem_cons_self _ _)
    subst hg
    simp only [List.flatten_cons, List.length_cons, List.length_append]
    have := ih (fun g hgm => h g (List.mem_cons_of_mem _ hgm))
    simp only [List.length_cons, List.length_nil]
    omega

theorem flatten_head_comma (gs : List (List Char)) (suf : List Char) (hgs : gs ≠ [])
    (hwf : ∀ g ∈ gs, WFGroup g) :
    ∀ c, (gs.flatten ++ suf).head? = some c → c.isDigit = false := by
  intro c hc
  cases gs with
  | nil => exact absurd rfl hgs
  | cons g0 gt =>
    obtain ⟨x, y, z, hg0, -, -, -⟩ := hwf g0 (List.mem_cons_self _ _)
    subst hg0
    simp only [List.flatten_cons, List.cons_append, List.append_assoc, List.head?_cons,
      Option.some.injEq] at hc
    subst hc
    decide

theorem digitsPrefix_grouped (a : List Char) (gs : List (List Char)) (suf : List Char)
    (had : DigitList a) (hgs : gs ≠ []) (hwf : ∀ g ∈ gs, WFGroup g) :
    digitsPrefix (a ++ (gs.flatten ++ suf)) = a := by
  unfold digitsPrefix
  rw [takeWhile_all_append _ _ _ had,
    takeWhile_head_false _ _ (flatten_head_comma gs suf hgs hwf)]
  simp

theorem alt1At_grouped (a : List Char) (gs : List (List Char)) (suf : List Char)
    (ha : a ≠ []) (had : DigitList a) (hgs : gs ≠ [])
    (hwf : ∀ g ∈ gs, WFGroup g) (hs : SufOK suf) :
    alt1At (a ++ (gs.flatten ++ suf)) a.length = some (a ++ gs.flatten, suf) := by
  have hdp := digitsPrefix_grouped a gs suf had hgs hwf
  have hane : 1 ≤ a.length := List.length_pos.mpr ha
  unfold alt1At
  rw [if_pos ⟨hane, by rw [hdp]⟩, List.take_left, List.drop_left]
  have hfuel : gs.length ≤ (gs.flatten ++ suf).length := by
    have h1 := flatten_length_ge gs hwf
    simp only [List.length_append]
    omega
  simp only []
  rw [commaGroups_flatten gs suf _ hwf
    (fun c hc => sufOK_mem_ne_comma suf hs c (mem_of_head_eq _ _ hc)) hfuel]
  have hfl : gs.flatten ≠ [] := by
    cases gs with
    | nil => exact absurd rfl hgs
    | cons g0 gt =>
      obtain ⟨x, y, z, hg0, -, -, -⟩ := hwf g0 (List.mem_cons_self _ _)
      subst hg0
      simp
  simp [isEmpty_false_of_ne_nil _ hfl]

theorem matchAlt1_grouped (a : List Char) (gs : List (List Char)) (suf : List Char)
    (ha : a ≠ []) (ha3 : a.length ≤ 3) (had : DigitList a) (hgs : gs ≠ [])
    (hwf : ∀ g ∈ gs, WFGroup g) (hs : SufOK suf) :
    matchAlt1 (a ++ (gs.flatten ++ suf)) = some (a ++ gs.flatten, suf) := by
  have hdp := digitsPrefix_grouped a gs suf had hgs hwf
  have hane : 1 ≤ a.length := List.length_pos.mpr ha
  have hcase : a.length = 1 ∨ a.length = 2 ∨ a.length = 3 := by omega
  have hsome := alt1At_grouped a gs suf ha had hgs hwf hs
  unfold matchAlt1
  rcases hcase with hL | hL | hL
  · rw [alt1At_none_of_gt _ 3 (by rw [hdp]; omega),
      alt1At_none_of_gt _ 2 (by rw [hdp]; omega)]
    rw [hL] at hsome
    rw [hsome]
    rfl
  · rw [alt1At_none_of_gt _ 3 (by rw [hdp]; omega)]
    rw [hL] at hsome
    rw [hsome]
    rfl
  · rw [hL] at hsome
    rw [hsome]
    rfl

theorem matchNum_wf (g suf : List Char) (h : WFPlain g ∨ WFGrouped g) (hs : SufOK suf) :
    matchNum (g ++ suf) = some (g, suf.head?) := by
  have halt : ((matchAlt1 (g ++ suf)).orElse fun _ => matchAlt2 (g ++ suf)) = some (g, suf) := by
    rcases h with hp | ⟨a, gs, hg, ha, ha3, had, hgs, hwf⟩
    · rw [matchAlt1_plain_none g suf hp hs, matchAlt2_plain g suf hp hs]
      rfl
    · subst hg
      have hassoc : (a ++ gs.flatten) ++ suf = a ++ (gs.flatten ++ suf) := by simp
      rw [hassoc, matchAlt1_grouped a gs suf ha ha3 had hgs hwf hs]
      rfl
  unfold matchNum
  rw [halt]
  rcases hs with rfl | ⟨c, rfl, hsc⟩
  · rfl
  · simp only [List.head?_cons]
    rw [if_pos (show c = 'k' ∨ c = 'K' ∨ c = 'm' ∨ c = 'M' from hsc)]

theorem wf_no_ws (g suf : List Char) (h : WFPlain g ∨ WFGrouped g) (hs : SufOK suf) :
    ∀ c ∈ g ++ suf, c.isWhitespace = false := by
  intro c hc
  rcases List.mem_append.mp hc with hg | hsuf
  · rcases h with hp | ⟨a, gs, hgd, ha, ha3, had, hgs, hwf⟩
    · rcases hp with ⟨_, hdig⟩ | ⟨d, f, hgd, _, _, hd, hf⟩
      · exact ws_false_of_digit c (hdig c hg)
      · subst hgd
        rcases List.mem_append.mp hg with h1 | h1
        · exact ws_false_of_digit c (hd c h1)
        · rcases List.mem_cons.mp h1 with h2 | h2
          · subst h2
            decide
          · exact ws_false_of_digit c (hf c h2)
    · subst hgd
      rcases List.mem_append.mp hg with h1 | h1
      · exact ws_false_of_digit c (had c h1)
      · obtain ⟨grp, hgrp, hcg⟩ := List.mem_flatten.mp h1
        obtain ⟨x, y, z, hgeq, hx, hy, hz⟩ := hwf grp hgrp
        subst hgeq
        rcases List.mem_cons.mp hcg with h2 | h2
        · subst h2
          decide
        · rcases List.mem_cons.mp h2 with h3 | h3
          · subst h3
            exact ws_false_of_digit _ hx
          · rcases List.mem_cons.mp h3 with h4 | h4
            · subst h4
              exact ws_false_of_digit _ hy
            · rcases List.mem_cons.mp h4 with h5 | h5
              · subst h5
                exact ws_false_of_digit _ hz
              · simp at h5
  · rcases hs with rfl | ⟨c2, rfl, hsc⟩
    · simp at hsuf
    · simp only [List.mem_singleton] at hsuf
      subst hsuf
      exact (sufChar_props _ hsc).2.2.2

theorem wf_ne_nil (g : List Char) (h : WFPlain g ∨ WFGrouped g) : g ≠ [] := by
  rcases h with hp | ⟨a, gs, hgd, ha, _, _, _, _⟩
  · rcases hp with ⟨hne, _⟩ | ⟨d, f, hgd, hdne, _, _, _⟩
    · exact hne
    · subst hgd
      simp [hdne]
  · subst hgd
    simp [ha]

/-- C8.  The claim as stated is false: the source computes
`int(float(num) * mult)` in IEEE double precision, and the double rounding
can land just below the exact product, e.g. `parse("1.001K") == 1000`
although exact multiply-then-truncate gives `1001` (`claim_C8_cex`).  The
claim amended to the code's arithmetic: for every string consisting of a
decimal number (with optional `','` thousands separators) followed by an
optional `k`/`K`/`m`/`M` suffix, the parser converts the comma-stripped
number to the nearest double, multiplies in double precision by 1,000 for
`k`/`K` or 1,000,000 for `m`/`M`, and truncates the double-precision product
toward zero; the quoted examples `parse("1.2K") == 1200`,
`parse("3,400") == 3400`, `parse("5M") == 5_000_000` hold, and truncation
(not rounding) is visible in `parse("1.2345K") == 1234`. -/
theorem claim_C8 :
    (∀ g suf : List Char, WFPlain g ∨ WFGrouped g → SufOK suf →
      to_int_safe (some ⟨g ++ suf⟩) =
        some (pqFloor (applySuffix (roundDouble
          (ratOfNumStr (g.filter (fun c => c ≠ ',')))) suf.head?))) ∧
    to_int_safe (some "1.2K") = some 1200 ∧
    to_int_safe (some "3,400") = some 3400 ∧
    to_int_safe (some "5M") = some 5000000 ∧
    to_int_safe (some "1.2345K") = some 1234 := by
  refine ⟨?_, by decide, by decide, by decide, by decide⟩
  intro g suf hwf hs
  have hdata : (⟨g ++ suf⟩ : String).data = g ++ suf := rfl
  have hstrip : pyStrip (g ++ suf) = g ++ suf := pyStrip_eq_self _ (wf_no_ws g suf hwf hs)
  have hne : g ++ suf ≠ [] := by
    have := wf_ne_nil g hwf
    simp [this]
  simp only [to_int_safe, hdata, hstrip, isEmpty_false_of_ne_nil _ hne, Bool.false_eq_true,
    if_false, matchNum_wf g suf hwf hs]

/-- Counterexample to C8 as stated: on `"1.001K"` the code yields `1000`,
while multiplying the parsed value by 1,000 exactly and truncating toward
zero yields `1001`; the difference is the binary64 rounding of
`float("1.001")`. -/
theorem claim_C8_cex :
    to_int_safe (some "1.001K") = some 1000 ∧
    pqFloor (pqMul (ratOfNumStr "1.001".data) (pqOfNat 1000)) = 1001 ∧
    to_int_safe (some "1.001K") ≠
      some (pqFloor (pqMul (ratOfNumStr "1.001".data) (pqOfNat 1000))) := by
  refine ⟨by decide, by decide, by decide⟩

theorem claim_C8_witness :
    (WFPlain "1.2".data ∨ WFGrouped "1.2".data) ∧ SufOK ['K'] ∧
    to_int_safe (some ⟨"1.2".data ++ ['K']⟩) =
      some (pqFloor (applySuffix (roundDouble
        (ratOfNumStr ("1.2".data.filter (fun c => c ≠ ',')))) (['K'].head?))) := by
  refine ⟨Or.inl (Or.inr ⟨['1'], ['2'], by decide, by decide, by decide, ?_, ?_⟩),
    Or.inr ⟨'K', rfl, Or.inr (Or.inl rfl)⟩, ?_⟩
  · intro c hc
    simp only [List.mem_singleton] at hc
    subst hc
    decide
  · intro c hc
    simp only [List.mem_singleton] at hc
    subst hc
    decide
  · exact claim_C8.1 "1.2".data ['K']
      (Or.inl (Or.inr ⟨['1'], ['2'], by decide, by decide, by decide,
        by intro c hc; simp only [List.mem_singleton] at hc; subst hc; decide,
        by intro c hc; simp only [List.mem_singleton] at hc; subst hc; decide⟩))
      (Or.inr ⟨'K', rfl, Or.inr (Or.inl rfl)⟩)

/-! ## Claim C4 — the scroll loop has no 8-cycle stagnation bound -/

/-- A page trace that yields no candidate links but reports a strictly
growing scroll height for nine cycles. -/
def c4Trace : List PageCycle :=
  (List.range 9).map (fun i => ⟨[], some (i + 1)⟩)

/-- Counterexample to C4 as stated: after nine full cycles that yielded no
links at all, the loop of `_scroll_and_collect` is still running
(`scrollRun … = none` means the trace was exhausted with the `while` loop
still active), so no stagnation bound of 8 cycles exists; the loop only
stops when the reported page height repeats (or the cap is reached). -/
theorem claim_C4_cex :
    scrollRun 1 c4Trace [] 0 0 = none ∧
    c4Trace.all (fun c => c.anchors.isEmpty) = true ∧
    c4Trace.length = 9 := by
  refine ⟨by decide, by decide, by decide⟩

/-- C4.  The claim as stated is false (`claim_C4_cex`): the source has no
count of stagnant cycles, let alone a bound of 8 — it breaks out of the
collection loop as soon as `document.body.scrollHeight` equals the value of
the previous cycle.  The claim amended to the code's stagnation rule: a
candidate-listing cycle that reports the same height every cycle (in
particular one that also never yields new links) terminates within 2 cycles
regardless of the requested limit. -/
theorem claim_C4 (trace : List PageCycle) (limit h0 : Nat)
    (hh : ∀ c ∈ trace, c.height = some h0) (hlen : 2 ≤ trace.length) :
    ∃ out, scrollRun limit trace [] 0 0 = some out ∧ out.2 ≤ 2 := by
  match trace, hlen with
  | c1 :: c2 :: rest, _ =>
    have h1 : c1.height = some h0 := hh c1 (List.mem_cons_self _ _)
    have h2 : c2.height = some h0 := hh c2 (List.mem_cons_of_mem _ (List.mem_cons_self _ _))
    rw [scrollRun]
    by_cases hl : limit ≤ ([] : List String).length
    · rw [if_pos hl]
      exact ⟨([], 0), rfl, by omega⟩
    · rw [if_neg hl, h1]
      simp only []
      by_cases hz : h0 = 0
      · rw [if_pos hz]
        exact ⟨(addAnchors limit [] c1.anchors, 1), rfl, by omega⟩
      · rw [if_neg hz, scrollRun]
        by_cases hl2 : limit ≤ (addAnchors limit [] c1.anchors).length
        · rw [if_pos hl2]
          exact ⟨(addAnchors limit [] c1.anchors, 1), rfl, by omega⟩
        · rw [if_neg hl2, h2]
          simp only []
          rw [if_pos trivial]
          exact ⟨(addAnchors limit (addAnchors limit [] c1.anchors) c2.anchors, 2), rfl,
            by omega⟩

theorem claim_C4_witness :
    (scrollRun 5 [⟨[], some 7⟩, ⟨[], some 7⟩] [] 0 0).isSome = true := by
  obtain ⟨out, heq, -⟩ :=
    claim_C4 [⟨[], some 7⟩, ⟨[], some 7⟩] 5 7 (by decide) (by decide)
  rw [heq]
  rfl

/-! ## Claims C1 and C2 — deduplication identity and the collection cap -/

/-- A metadata visit stub: the record for a URL (identity fields only; the
claims below concern how many records are produced, not their contents). -/
def visitStub : String → VideoRecord := fun u => { video_id := "", url := u }

/-- Counterexample to C1 as stated: two candidate URLs that differ only in
their query string survive the orchestrator's deduplication (source lines
721-727 compare full URL strings, nothing strips query parameters), so two
records are produced, not one. -/
theorem claim_C1_cex :
    (runSearch
      (fun _ n => (["https://www.tiktok.com/@alice/video/123?x=1",
        "https://www.tiktok.com/@alice/video/123?x=2"]).take n)
      (fun _ => "") visitStub ["k"] 2 0).length = 2 ∧ (2 : Nat) ≠ 1 := by
  refine ⟨by decide, by decide⟩

/-- C1.  The claim as stated is false (`claim_C1_cex`): the record identity
used by the deduplication is the exact URL string, not the URL stripped of
its query string.  The claim amended to the code's identity: deduplication
keeps the first occurrence of every distinct URL string (no record set
contains the same URL string twice, and no URL is dropped), and feeding the
orchestrator the same exact URL string twice yields exactly one record,
while URLs differing only in their query string stay distinct. -/
theorem claim_C1 :
    (∀ urls, (dedupUrls urls).Nodup ∧ ∀ u, u ∈ dedupUrls urls ↔ u ∈ urls) ∧
    (∀ (visit : String → VideoRecord) (u : String),
      (runSearch (fun _ n => [u, u].take n) (fun _ => "") visit ["k"] 2 0).length = 1) := by
  constructor
  · intro urls
    exact ⟨dedupFirst_nodup urls, fun u => dedupFirst_mem urls u⟩
  · intro visit u
    simp only [runSearch, dedupUrls, dedupFirst, dedupFirstAux]
    simp

/-- Bounding the `all_urls.extend(...)` accumulation loops. -/
theorem foldl_append_length_le {α : Type} (f : α → List String) (bound : Nat) :
    ∀ (xs : List α) (acc : List String), (∀ x ∈ xs, (f x).length ≤ bound) →
      (xs.foldl (fun a x => a ++ f x) acc).length ≤ acc.length + xs.length * bound := by
  intro xs
  induction xs with
  | nil => simp
  | cons x xt ih =>
    intro acc hb
    simp only [List.foldl_cons, List.length_cons]
    have h1 := ih (acc ++ f x) (fun y hy => hb y (List.mem_cons_of_mem _ hy))
    have h2 : (f x).length ≤ bound := hb x (List.mem_cons_self _ _)
    simp only [List.length_append] at h1
    calc (List.foldl (fun a x => a ++ f x) (acc ++ f x) xt).length
        ≤ acc.length + (f x).length + xt.length * bound := h1
      _ ≤ acc.length + (xt.length + 1) * bound := by nlinarith

theorem pivotTop_length_le (descOracle : String → String) (pivotHashtags : Nat)
    (all1 : List String) : (pivotTop descOracle pivotHashtags all1).length ≤ pivotHashtags := by
  unfold pivotTop
  split
  · simp [List.length_take_le]
  · simp

/-- Oracles for the counterexample run: the keyword `"k"` yields one
candidate, its description carries the hashtag `#tg`, and the pivot query
`"#tg"` yields a second candidate; every oracle answer respects the
requested cap. -/
def oracleC2 : String → Nat → List String := fun q n =>
  (if q = "k" then ["u1"] else if q = "#tg" then ["u2"] else []).take n

/-- Description oracle for the counterexample run. -/
def descC2 : String → String := fun _ => "#tg"

/-- Counterexample to C2 as stated: with global limit 1 and one keyword, the
hashtag pivot issues a further query capped at `max(10, limit // 2)`, and
all its candidates are processed too — two records are collected although
the configured limit is 1.  The `limit` of the source is a per-query cap
(CLI help: "per query"), not a global one. -/
theorem claim_C2_cex :
    (runSearch oracleC2 descC2 visitStub ["k"] 1 1).length = 2 ∧ ¬(2 ≤ 1) := by
  refine ⟨by decide, by decide⟩

/-- C2.  The claim as stated is false (`claim_C2_cex`): the cap is enforced
per search query, not globally.  The claim amended to the code's cap: if
every candidate-collection call returns at most the cap it was given (which
`_scroll_and_collect` guarantees), a run with K keywords, limit L and P
pivot hashtags collects at most `K * L + P * max 10 (L / 2)` records — each
keyword query is capped at `L` and each pivot query at `max 10 (L / 2)`. -/
theorem claim_C2 (oracle : String → Nat → List String) (descOracle : String → String)
    (visit : String → VideoRecord) (keywords : List String) (limit pivotHashtags : Nat)
    (hcap : ∀ q n, (oracle q n).length ≤ n) :
    (runSearch oracle descOracle visit keywords limit pivotHashtags).length ≤
      keywords.length * limit + pivotHashtags * max 10 (limit / 2) := by
  simp only [runSearch, dedupUrls, List.length_map]
  apply le_trans (dedupFirst_length _)
  apply le_trans (foldl_append_length_le (fun p : String × Nat =>
    oracle ("#" ++ p.1) (max 10 (limit / 2))) (max 10 (limit / 2)) _ _ (fun p _ => hcap _ _))
  have h1 : (keywords.foldl (fun a kw => a ++ oracle kw limit) []).length ≤
      keywords.length * limit := by
    have := foldl_append_length_le (fun kw => oracle kw limit) limit keywords []
      (fun kw _ => hcap _ _)
    simpa using this
  have h2 := pivotTop_length_le descOracle pivotHashtags
    (keywords.foldl (fun a kw => a ++ oracle kw limit) [])
  exact Nat.add_le_add h1 (Nat.mul_le_mul_right _ h2)

theorem claim_C2_witness :
    (runSearch oracleC2 descC2 visitStub ["k"] 1 1).length ≤
      (["k"] : List String).length * 1 + 1 * max 10 (1 / 2) := by
  apply claim_C2
  intro q n
  simp only [oracleC2]
  split <;> simp [List.length_take_le]

/-! ## Claim C9 — report ordering and risk flagging -/

/-- A record carrying only a risk score (everything else defaulted). -/
def recOfScore (n : Nat) : VideoRecord := { video_id := "", url := "", risk_score := n }

theorem reportLE_total (a b : VideoRecord) : reportLE a b = true ∨ reportLE b a = true := by
  simp only [reportLE, decide_eq_true_eq]
  omega

theorem reportLE_trans (a b c : VideoRecord) (hab : reportLE a b = true)
    (hbc : reportLE b c = true) : reportLE a c = true := by
  simp only [reportLE, decide_eq_true_eq] at *
  omega

/-- C9.  The report emits `records_sorted`: a permutation of the input that
is sorted by the key `(-risk_score, -like_count)` — risk score descending
with ties broken by like count descending — and each row is flagged
`risk-high` at score ≥ 3 and `risk-medium` at 0 < score < 3; on scores
`[0, 3, 1, 5]` the emitted order is `[5, 3, 1, 0]`. -/
theorem claim_C9 :
    (∀ records : List VideoRecord,
      (sortRecordsForReport records).Perm records ∧
      (sortRecordsForReport records).Pairwise (fun a b => reportLE a b = true)) ∧
    (∀ r : VideoRecord,
      (3 ≤ r.risk_score → riskClassOf r = "risk-high") ∧
      (0 < r.risk_score → r.risk_score < 3 → riskClassOf r = "risk-medium")) ∧
    (sortRecordsForReport
      [recOfScore 0, recOfScore 3, recOfScore 1, recOfScore 5]).map
        (fun r => r.risk_score) = [5, 3, 1, 0] := by
  refine ⟨?_, ?_, by decide⟩
  · intro records
    haveI htot : IsTotal VideoRecord (fun a b => reportLE a b = true) :=
      ⟨fun a b => reportLE_total a b⟩
    haveI htr : IsTrans VideoRecord (fun a b => reportLE a b = true) :=
      ⟨fun a b c => reportLE_trans a b c⟩
    exact ⟨List.perm_insertionSort _ records, List.sorted_insertionSort _ records⟩
  · intro r
    constructor
    · intro h3
      rw [riskClassOf, if_pos h3]
    · intro h0 h3
      rw [riskClassOf, if_neg (by omega), if_pos h0]

theorem claim_C9_witness :
    riskClassOf (recOfScore 4) = "risk-high" ∧
    riskClassOf (recOfScore 2) = "risk-medium" :=
  ⟨(claim_C9.2.1 (recOfScore 4)).1 (by decide),
    (claim_C9.2.1 (recOfScore 2)).2 (by decide) (by decide)⟩

/-! ## Claim C5 — amplification bonus of the risk scorer -/

/-- The amplification condition of source line 285: one of the four
high-confidence phrases occurs in the lowered text. -/
def ampPhrasePresent (text : Option String) : Bool :=
  RISK_AMPS.any (fun k => containsSub (strLower (text.getD "")) k)

/-- C5.  The returned match list is duplicate-free; when an amplification
phrase is present the score is the distinct-match count plus exactly 2
(once, however many such phrases occur — see the triple-phrase example,
whose score is 5 = 3 + 2, not 3 + 6), otherwise it is the distinct-match
count. -/
theorem claim_C5 :
    (∀ text, ((risk_score text).2).Nodup ∧
      (ampPhrasePresent text = true →
        (risk_score text).1 = ((risk_score text).2).length + 2) ∧
      (ampPhrasePresent text = false →
        (risk_score text).1 = ((risk_score text).2).length)) ∧
    risk_score (some "seed phrase") = (3, ["seed phrase"]) ∧
    risk_score (some "transfer dulu seed phrase private key") =
      (5, ["transfer dulu", "seed phrase", "private key"]) ∧
    risk_score (some "") = (0, []) := by
  refine ⟨?_, by decide, by decide, by decide⟩
  intro text
  by_cases hamp : ampPhrasePresent text = true
  · have hcond := hamp
    simp only [ampPhrasePresent] at hcond
    refine ⟨?_, fun _ => ?_, fun hf => absurd hamp (by simp [hf])⟩
    · simp only [risk_score, hcond, if_true]
      exact dedupFirst_nodup _
    · simp [risk_score, hcond]
  · have hcond : ampPhrasePresent text = false := by
      simpa using hamp
    have hcond2 := hcond
    simp only [ampPhrasePresent] at hcond2
    refine ⟨?_, fun ht => absurd ht hamp, fun _ => ?_⟩
    · simp only [risk_score, hcond2, Bool.false_eq_true, if_false]
      exact dedupFirst_nodup _
    · simp [risk_score, hcond2]

theorem claim_C5_witness :
    ampPhrasePresent (some "seed phrase") = true ∧
    (risk_score (some "seed phrase")).1 =
      ((risk_score (some "seed phrase")).2).length + 2 :=
  ⟨by decide, (claim_C5.1 (some "seed phrase")).2.1 (by decide)⟩

/-! ## Claim C7 — hashtag extractor -/

/-- C7.  The extractor returns duplicate-free tokens in first-occurrence
order: tokens of 2–64 word characters after a `'#'` not preceded by `'&'`,
case-sensitively distinct (`"#promo gratis #PROMO"` keeps both casings, in
order), HTML-entity artifacts excluded (`"&#123;"` yields nothing), empty or
`None` input yields `[]`; one-character tags are rejected and tags are cut
at 64 word characters. -/
theorem claim_C7 :
    (∀ text, (collect_hashtags text).Nodup) ∧
    collect_hashtags (some "#promo gratis #PROMO") = ["promo", "PROMO"] ∧
    collect_hashtags (some "&#123;") = [] ∧
    collect_hashtags none = [] ∧
    collect_hashtags (some "") = [] ∧
    collect_hashtags (some "#ab x #cd #ab") = ["ab", "cd"] ∧
    collect_hashtags (some "#a") = [] ∧
    collect_hashtags (some ⟨'#' :: List.replicate 65 'a'⟩) = [⟨List.replicate 64 'a'⟩] := by
  refine ⟨?_, by decide, by decide, rfl, by decide, by decide, by decide, by decide⟩
  intro text
  match text with
  | none => simp [collect_hashtags]
  | some t =>
    simp only [collect_hashtags]
    split
    · exact List.nodup_nil
    · exact dedupFirst_nodup _

/-! ## Claim C10 — every reported risk match is lowercase -/

theorem uint32_le_iff (a b : UInt32) : a ≤ b ↔ a.toNat ≤ b.toNat := by
  rw [UInt32.le_def, BitVec.le_def]
  rfl

theorem toNat_char_ofNat_valid (n : Nat) (h : n < 55296) : (Char.ofNat n).toNat = n := by
  rw [Char.ofNat, dif_pos (Or.inl (by exact_mod_cast h))]
  rfl

theorem pyLowerCh_isUpper (c : Char) : (pyLowerCh c).isUpper = false := by
  unfold pyLowerCh
  by_cases h : c.isUpper = true
  · rw [if_pos h]
    simp only [Char.isUpper, Bool.and_eq_true, decide_eq_true_eq] at h
    have hb : 65 ≤ c.toNat ∧ c.toNat ≤ 90 :=
      ⟨(uint32_le_iff 65 c.val).mp h.1, (uint32_le_iff c.val 90).mp h.2⟩
    have hval : (Char.ofNat (c.toNat + 32)).toNat = c.toNat + 32 :=
      toNat_char_ofNat_valid _ (by omega)
    have h90 : ((Char.ofNat (c.toNat + 32)).val ≤ (90 : UInt32)) = False := by
      simp only [eq_iff_iff, iff_false]
      intro hle
      rw [uint32_le_iff] at hle
      have hv : (Char.ofNat (c.toNat + 32)).val.toNat = c.toNat + 32 := hval
      rw [hv] at hle
      have h90n : (90 : UInt32).toNat = 90 := rfl
      rw [h90n] at hle
      omega
    simp only [Char.isUpper, h90, decide_False, Bool.and_false]
  · rw [if_neg h]
    simpa using h

theorem strLower_no_upper (s : String) : ∀ c ∈ (strLower s).data, c.isUpper = false := by
  intro c hc
  simp only [strLower] at hc
  obtain ⟨c0, -, hc0⟩ := List.mem_map.mp hc
  rw [← hc0]
  exact pyLowerCh_isUpper c0

theorem attemptPhone_take (prev : Option Char) (cs : List Char) (res : List Char) (k : Nat)
    (h : attemptPhone prev cs = some (res, k)) : ∃ n, res = List.take n cs := by
  simp only [attemptPhone] at h
  split at h
  · simp at h
  · split at h
    · simp at h
    · split at h
      · split at h
        · simp only [Option.some.injEq, Prod.mk.injEq] at h
          exact ⟨_, h.1.symm⟩
        · simp at h
      · simp at h

theorem attemptBtc_take (prev : Option Char) (cs : List Char) (res : List Char) (k : Nat)
    (h : attemptBtc prev cs = some (res, k)) : ∃ n, res = List.take n cs := by
  simp only [attemptBtc] at h
  split at h
  · simp at h
  · split at h
    · simp at h
    · split at h
      · simp only [Option.some.injEq, Prod.mk.injEq] at h
        exact ⟨_, h.1.symm⟩
      · simp at h

theorem attemptTrx_take (prev : Option Char) (cs : List Char) (res : List Char) (k : Nat)
    (h : attemptTrx prev cs = some (res, k)) : ∃ n, res = List.take n cs := by
  simp only [attemptTrx] at h
  split at h
  · simp at h
  · split at h
    · split at h
      · simp only [Option.some.injEq, Prod.mk.injEq] at h
        exact ⟨_, h.1.symm⟩
      · simp at h
    · simp at h

theorem attemptEth_take (prev : Option Char) (cs : List Char) (res : List Char) (k : Nat)
    (h : attemptEth prev cs = some (res, k)) : ∃ n, res = List.take n cs := by
  simp only [attemptEth] at h
  split at h
  · simp at h
  · split at h
    · split at h
      · simp only [Option.some.injEq, Prod.mk.injEq] at h
        exact ⟨_, h.1.symm⟩
      · simp at h
    · simp at h

theorem findallAux_chars (attempt : Option Char → List Char → Option (List Char × Nat))
    (htake : ∀ prev cs res k, attempt prev cs = some (res, k) → ∃ n, res = List.take n cs) :
    ∀ (fuel : Nat) (prev : Option Char) (cs : List Char) (s : String),
      s ∈ findallAux attempt fuel prev cs → ∀ ch ∈ s.data, ch ∈ cs := by
  intro fuel
  induction fuel with
  | zero =>
    intro prev cs s hs
    simp [findallAux] at hs
  | succ f ih =>
    intro prev cs s hs ch hch
    match cs with
    | [] => simp [findallAux] at hs
    | c :: rest =>
      simp only [findallAux] at hs
      cases hat : attempt prev (c :: rest) with
      | none =>
        rw [hat] at hs
        exact List.mem_cons_of_mem _ (ih (some c) rest s hs ch hch)
      | some rk =>
        obtain ⟨res, k⟩ := rk
        rw [hat] at hs
        rcases List.mem_cons.mp hs with h1 | h1
        · subst h1
          obtain ⟨n, hn⟩ := htake prev (c :: rest) res k hat
          have hdata : (⟨res⟩ : String).data = res := rfl
          rw [hdata, hn] at hch
          exact List.take_subset _ _ hch
        · exact List.drop_subset _ _ (ih _ _ s h1 ch hch)

/-- The match list component of `risk_score` (identical in both branches of
the amplification step). -/
theorem risk_score_matches (text : Option String) :
    (risk_score text).2 =
      dedupFirst ((RISK_TERMS.filter
          (fun term => containsSub (strLower (text.getD "")) term)) ++
        riskRegexMatches (strLower (text.getD ""))) := by
  simp only [risk_score]
  split <;> rfl

/-- C10.  Every string in the returned match list is entirely lowercase (no
uppercase ASCII letter): matching is performed on the lowered text, matched
`RISK_TERMS` entries are substrings of it, and regex hits are extracted from
it. -/
theorem claim_C10 (text : Option String) (m : String)
    (hm : m ∈ (risk_score text).2) : m.data.all (fun c => !c.isUpper) = true := by
  rw [risk_score_matches] at hm
  rw [List.all_eq_true]
  intro c hc
  have hmem : ∀ ch ∈ m.data, ch ∈ (strLower (text.getD "")).data := by
    intro ch hch
    have hm2 := (dedupFirst_mem _ m).mp hm
    rcases List.mem_append.mp hm2 with h1 | h1
    · have := (List.mem_filter.mp h1).2
      simp only [containsSub] at this
      exact containsSubAux_subset _ _ this ch hch
    · simp only [riskRegexMatches] at h1
      have h2 := (List.mem_filter.mp h1).1
      rcases List.mem_append.mp h2 with h3 | h3
      · rcases List.mem_append.mp h3 with h4 | h4
        · rcases List.mem_append.mp h4 with h5 | h5
          · exact findallAux_chars attemptPhone attemptPhone_take _ _ _ m h5 ch hch
          · exact findallAux_chars attemptBtc attemptBtc_take _ _ _ m h5 ch hch
        · exact findallAux_chars attemptTrx attemptTrx_take _ _ _ m h4 ch hch
      · exact findallAux_chars attemptEth attemptEth_take _ _ _ m h3 ch hch
  have := strLower_no_upper (text.getD "") c (hmem c hc)
  simp [this]

theorem claim_C10_witness :
    "seed phrase" ∈ (risk_score (some "SEED PHRASE")).2 ∧
    ("seed phrase" : String).data.all (fun c => !c.isUpper) = true :=
  ⟨by decide, claim_C10 (some "SEED PHRASE") "seed phrase" (by decide)⟩

/-! ## Claim C6 — URL identity parser -/

theorem drop_takeWhile_len (p : Char → Bool) (l : List Char) :
    l.drop (l.takeWhile p).length = l.dropWhile p := by
  induction l with
  | nil => rfl
  | cons c t ih =>
    by_cases hc : p c = true
    · simp only [List.takeWhile_cons, hc, if_true, List.length_cons, List.drop_succ_cons,
        List.dropWhile_cons, ih]
    · have hc2 : p c = false := by simpa using hc
      simp [List.takeWhile_cons, List.dropWhile_cons, hc2]

/-- `_VIDEO_URL_RE` matches at the head of the text. -/
def shapeAt (cs : List Char) : Prop :=
  ∃ user ds suf, cs = '/' :: '@' :: (user ++ VIDEO_MID ++ ds ++ suf) ∧
    user ≠ [] ∧ (∀ c ∈ user, c ≠ '/') ∧ ds ≠ [] ∧ (∀ c ∈ ds, c.isDigit = true)

theorem matchVideoAt_iff (cs : List Char) :
    (matchVideoAt cs).isSome = true ↔ shapeAt cs := by
  constructor
  · intro h
    match cs with
    | [] => simp [matchVideoAt] at h
    | [c0] => simp [matchVideoAt] at h
    | c0 :: c1 :: rest =>
      simp only [matchVideoAt] at h
      by_cases hca : c0 = '/' ∧ c1 = '@'
      case neg => rw [if_neg hca] at h; simp at h
      obtain ⟨hc0, hc1⟩ := hca
      subst hc0
      subst hc1
      rw [if_pos ⟨rfl, rfl⟩] at h
      by_cases hu : rest.takeWhile (fun c => c ≠ '/') = []
      case pos => rw [if_pos hu] at h; simp at h
      rw [if_neg hu] at h
      by_cases hp : VIDEO_MID.isPrefixOf (rest.drop (rest.takeWhile (fun c => c ≠ '/')).length)
      case neg => rw [if_neg hp] at h; simp at h
      rw [if_pos hp] at h
      by_cases hds : ((rest.drop (rest.takeWhile (fun c => c ≠ '/')).length).drop 7).takeWhile
          Char.isDigit = []
      case pos => rw [if_pos hds] at h; simp at h
      obtain ⟨t, ht⟩ := (isPrefixOfExists _ _).mp hp
      refine ⟨rest.takeWhile (fun c => c ≠ '/'),
        ((rest.drop (rest.takeWhile (fun c => c ≠ '/')).length).drop 7).takeWhile Char.isDigit,
        ((rest.drop (rest.takeWhile (fun c => c ≠ '/')).length).drop 7).dropWhile Char.isDigit,
        ?_, hu, ?_, hds, ?_⟩
      · have hrest : rest = rest.takeWhile (fun c => c ≠ '/') ++
            rest.drop (rest.takeWhile (fun c => c ≠ '/')).length := by
          rw [drop_takeWhile_len]
          exact (List.takeWhile_append_dropWhile _ _).symm
        have hmid : rest.drop (rest.takeWhile (fun c => c ≠ '/')).length =
            VIDEO_MID ++ ((rest.drop (rest.takeWhile (fun c => c ≠ '/')).length).drop 7) := by
          rw [ht]
          have h7 : (7 : Nat) = VIDEO_MID.length := rfl
          rw [h7, List.drop_left]
        have htail : (rest.drop (rest.takeWhile (fun c => c ≠ '/')).length).drop 7 =
            ((rest.drop (rest.takeWhile (fun c => c ≠ '/')).length).drop 7).takeWhile
              Char.isDigit ++
            ((rest.drop (rest.takeWhile (fun c => c ≠ '/')).length).drop 7).dropWhile
              Char.isDigit := (List.takeWhile_append_dropWhile _ _).symm
        conv_lhs => rw [hrest, hmid, htail]
        simp [List.append_assoc]
      · intro c hc
        have := List.mem_takeWhile_imp hc
        simpa using this
      · intro c hc
        exact List.mem_takeWhile_imp hc
  · rintro ⟨user, ds, suf, heq, hune, husl, hdne, hdig⟩
    subst heq
    simp only [matchVideoAt]
    rw [if_pos ⟨trivial, trivial⟩]
    have hassoc : user ++ VIDEO_MID ++ ds ++ suf = user ++ (VIDEO_MID ++ (ds ++ suf)) := by
      simp [List.append_assoc]
    rw [hassoc]
    have htw : (user ++ (VIDEO_MID ++ (ds ++ suf))).takeWhile (fun c => c ≠ '/') = user := by
      rw [takeWhile_all_append _ _ _ (fun c hc => by simpa using husl c hc),
        takeWhile_head_false]
      · simp
      · intro c hc
        simp only [VIDEO_MID, List.cons_append, List.head?_cons, Option.some.injEq] at hc
        subst hc
        decide
    rw [htw, if_neg hune, List.drop_left]
    have hpre : VIDEO_MID.isPrefixOf (VIDEO_MID ++ (ds ++ suf)) = true :=
      (isPrefixOfExists _ _).mpr ⟨ds ++ suf, rfl⟩
    rw [if_pos hpre]
    have h7 : (7 : Nat) = VIDEO_MID.length := rfl
    rw [h7, List.drop_left]
    match ds, hdne with
    | d :: dt, _ =>
      have hd : d.isDigit = true := hdig d (List.mem_cons_self _ _)
      simp only [List.cons_append, List.takeWhile_cons, hd, if_true]
      simp

theorem canonicalShape_cons (c : Char) (rest : List Char) :
    canonicalShape (c :: rest) ↔ shapeAt (c :: rest) ∨ canonicalShape rest := by
  constructor
  · rintro ⟨pre, user, ds, suf, heq, hp⟩
    match pre, heq with
    | [], heq =>
      left
      exact ⟨user, ds, suf, by simpa using heq, hp⟩
    | p :: pt, heq =>
      right
      simp only [List.cons_append, List.cons.injEq] at heq
      exact ⟨pt, user, ds, suf, heq.2, hp⟩
  · rintro (⟨user, ds, suf, heq, hp⟩ | ⟨pre, user, ds, suf, heq, hp⟩)
    · exact ⟨[], user, ds, suf, by simpa using heq, hp⟩
    · exact ⟨c :: pre, user, ds, suf, by simp [heq], hp⟩

theorem videoUrlSearch_iff (cs : List Char) :
    (videoUrlSearch cs).isSome = true ↔ canonicalShape cs := by
  induction cs with
  | nil =>
    simp only [videoUrlSearch, Option.isSome_none, Bool.false_eq_true, false_iff]
    rintro ⟨pre, user, ds, suf, heq, -⟩
    simp at heq
  | cons c rest ih =>
    rw [canonicalShape_cons, ← matchVideoAt_iff, ← ih]
    simp only [videoUrlSearch]
    cases matchVideoAt (c :: rest) with
    | none => simp
    | some r => simp

/-- C6.  The parser returns a `(username, video id)` pair exactly when the
URL contains the canonical `/@<username>/video/<digits>` shape (nonempty
slash-free username, nonempty digit run); a trailing query string is
tolerated because the digit run simply stops at `'?'`; with no such shape it
returns `(None, None)`.  It never raises: the embedding is total (the
source additionally guards the call with `try`/`except`). -/
theorem claim_C6 :
    (∀ url : String,
      parse_username_and_id_from_url url ≠ (none, none) ↔ canonicalShape url.data) ∧
    parse_username_and_id_from_url "https://x.com/@alice/video/12345?x=1" =
      (some "alice", some "12345") ∧
    parse_username_and_id_from_url "https://x.com/nothing" = (none, none) := by
  refine ⟨?_, by decide, by decide⟩
  intro url
  rw [← videoUrlSearch_iff]
  unfold parse_username_and_id_from_url
  cases h : videoUrlSearch url.data with
  | none => simp
  | some r =>
    obtain ⟨g, ds⟩ := r
    simp

theorem claim_C6_witness :
    parse_username_and_id_from_url "https://x.com/@alice/video/12345?x=1" ≠ (none, none) ∧
    canonicalShape "https://x.com/@alice/video/12345?x=1".data :=
  ⟨by decide, (claim_C6.1 "https://x.com/@alice/video/12345?x=1").mp (by decide)⟩
